import Mathlib

/-!
Verification development for the RBM tomography program (`tomograph.py`).

The Python source is shallowly embedded: numeric tensors become lists over
`ℕ` (basis indices, bit vectors) or `ℝ` (amplitudes, phases, losses), the
fallible tensor operations (shape-mismatched slice assignment, out-of-range
indexing) become `Option`-valued functions, and the external collaborators
that are not part of the repository (the `RBM` class, `numpy`'s Hermite
series evaluator, torch's `lgamma`) are modelled from the specification's
contract for them.
-/

namespace Tomo

/-- Embedding of Python's `bin(i)[2:]` digit string as a list of bits,
most significant bit first.  `bin(0)[2:] = "0"`, so zero maps to `[0]`. -/
def pyBits (i : ℕ) : List ℕ :=
  if i = 0 then [0] else (Nat.digits 2 i).reverse

/-- Sequential `Option`-composition of a loop body over a list: the loop
fails at the first element whose body fails (a raised Python exception). -/
def mapO (f : α → Option β) : List α → Option (List β)
  | [] => some []
  | a :: t =>
    match f a with
    | none => none
    | some b =>
      match mapO f t with
      | none => none
      | some r => some (b :: r)

/-- One row of `idx2vis` (`tomograph.py`, lines 166-168): the binary string
of `idx[i]` is written into the last `len` slots of a zero row of width
`dim` via `vis[i, -len:] = id_bin`.  When `len ≤ dim` the slice has exactly
length `len`; when `len > dim` the clamped slice has length `dim` and the
assignment broadcasts, which torch permits only for a singleton source
(`len = 1`, writing nothing into a width-0 slice) and otherwise raises. -/
def idx2visRow (i dim : ℕ) : Option (List ℕ) :=
  let b := pyBits i
  if b.length ≤ dim then some (List.replicate (dim - b.length) 0 ++ b)
  else if b.length = 1 then some (List.replicate dim 0)
  else none

/-- Embedding of `idx2vis` (`tomograph.py`, lines 164-169): batch of
bit-vector rows, one per input index. -/
def idx2vis (idx : List ℕ) (dim : ℕ) : Option (List (List ℕ)) :=
  mapO (fun i => idx2visRow i dim) idx

/-- One row of `vis2idx`: the dot product of the row with descending powers
of two, `sum(2 ** reversed(arange(dim)) * vis, dim=1)`. -/
def vis2idxRow (row : List ℕ) : ℕ :=
  ∑ j ∈ Finset.range row.length, 2 ^ (row.length - 1 - j) * row.getD j 0

/-- Embedding of `vis2idx` (`tomograph.py`, lines 172-173). -/
def vis2idx (vis : List (List ℕ)) : List ℕ :=
  vis.map vis2idxRow

theorem vis2idxRow_nil : vis2idxRow [] = 0 := rfl

theorem vis2idxRow_cons (a : ℕ) (t : List ℕ) :
    vis2idxRow (a :: t) = 2 ^ t.length * a + vis2idxRow t := by
  unfold vis2idxRow
  rw [List.length_cons, Finset.sum_range_succ']
  simp only [List.getD_cons_succ, List.getD_cons_zero, Nat.succ_sub_one]
  rw [add_comm]
  congr 1
  refine Finset.sum_congr rfl fun j hj => ?_
  congr 2
  omega

/-- The MSB-first weighted sum agrees with Mathlib's LSB-first digit value
of the reversed list. -/
theorem vis2idxRow_eq_ofDigits (l : List ℕ) :
    vis2idxRow l = Nat.ofDigits 2 l.reverse := by
  induction l with
  | nil => rfl
  | cons a t ih =>
    rw [vis2idxRow_cons, List.reverse_cons, Nat.ofDigits_append, ih,
      List.length_reverse, Nat.ofDigits_singleton]
    ring

theorem ofDigits_replicate_zero (k : ℕ) :
    Nat.ofDigits 2 (List.replicate k 0) = 0 := by
  induction k with
  | zero => rfl
  | succ k ih =>
    simp [List.replicate_succ, Nat.ofDigits_cons, ih]

/-- Leading zero padding does not change the decoded index. -/
theorem vis2idxRow_replicate_append (k : ℕ) (l : List ℕ) :
    vis2idxRow (List.replicate k 0 ++ l) = vis2idxRow l := by
  rw [vis2idxRow_eq_ofDigits, vis2idxRow_eq_ofDigits, List.reverse_append,
    List.reverse_replicate, Nat.ofDigits_append, ofDigits_replicate_zero]
  ring

/-- Decoding the Python binary digit list recovers the number. -/
theorem vis2idxRow_pyBits (i : ℕ) : vis2idxRow (pyBits i) = i := by
  unfold pyBits
  by_cases h : i = 0
  · subst h; rfl
  · rw [if_neg h, vis2idxRow_eq_ofDigits, List.reverse_reverse,
      Nat.ofDigits_digits]

theorem pyBits_length_le (i dim : ℕ) (hdim : 1 ≤ dim) (h : i < 2 ^ dim) :
    (pyBits i).length ≤ dim := by
  unfold pyBits
  by_cases h0 : i = 0
  · simpa [h0] using hdim
  · rw [if_neg h0, List.length_reverse,
      Nat.digits_len 2 i (by norm_num) h0]
    have := (Nat.lt_pow_iff_log_lt (b := 2) (by norm_num) h0).mp h
    omega

theorem lt_pow_of_pyBits_length_le (i dim : ℕ) (h : (pyBits i).length ≤ dim) :
    i < 2 ^ dim := by
  unfold pyBits at h
  by_cases h0 : i = 0
  · subst h0; exact Nat.pos_pow_of_pos dim (by norm_num)
  · rw [if_neg h0, List.length_reverse] at h
    calc i < 2 ^ (Nat.digits 2 i).length :=
          Nat.lt_base_pow_length_digits (by norm_num)
      _ ≤ 2 ^ dim := Nat.pow_le_pow_right (by norm_num) h

/-- Each in-range index produces a row, and decoding it recovers the index
(covers the `dim = 0` case, where the broadcast writes nothing). -/
theorem idx2visRow_roundtrip (i dim : ℕ) (h : i < 2 ^ dim) :
    ∃ row, idx2visRow i dim = some row ∧ vis2idxRow row = i := by
  unfold idx2visRow
  by_cases hdim : 1 ≤ dim
  · have hlen := pyBits_length_le i dim hdim h
    refine ⟨_, by rw [if_pos hlen], ?_⟩
    rw [vis2idxRow_replicate_append, vis2idxRow_pyBits]
  · have hd0 : dim = 0 := by omega
    subst hd0
    interval_cases i
    exact ⟨[], rfl, rfl⟩

theorem mapO_isSome_iff (f : α → Option β) (l : List α) :
    (mapO f l).isSome = true ↔ ∀ a ∈ l, (f a).isSome = true := by
  induction l with
  | nil => simp [mapO]
  | cons a t ih =>
    simp only [mapO]
    cases hfa : f a with
    | none =>
      simp only [Option.isSome_none, Bool.false_eq_true, false_iff]
      intro hall
      have := hall a (List.mem_cons_self a t)
      rw [hfa] at this
      simp at this
    | some b =>
      cases hmt : mapO f t with
      | none =>
        rw [hmt] at ih
        simp only [Option.isSome_none, Bool.false_eq_true, false_iff] at ih ⊢
        intro hall
        exact ih (fun x hx => hall x (List.mem_cons_of_mem a hx))
      | some r =>
        rw [hmt] at ih
        simp only [Option.isSome_some, true_iff] at ih
        simp only [Option.isSome_some, true_iff]
        intro x hx
        rcases List.mem_cons.mp hx with h1 | h2
        · rw [h1, hfa]; rfl
        · exact ih x h2

theorem mapO_eq_some_map (f : α → Option β) (l : List α) (dflt : β)
    (h : ∀ a ∈ l, (f a).isSome = true) :
    mapO f l = some (l.map (fun a => (f a).getD dflt)) := by
  induction l with
  | nil => rfl
  | cons a t ih =>
    have ha := h a (List.mem_cons_self a t)
    cases hfa : f a with
    | none => rw [hfa] at ha; simp at ha
    | some b =>
      simp only [mapO, hfa, ih (fun x hx => h x (List.mem_cons_of_mem a hx)),
        List.map_cons, Option.getD_some]

theorem mapO_mem_of_eq_some (f : α → Option β) (l : List α) (res : List β)
    (h : mapO f l = some res) : ∀ r ∈ res, ∃ a ∈ l, f a = some r := by
  induction l generalizing res with
  | nil =>
    simp only [mapO, Option.some.injEq] at h
    subst h; simp
  | cons a t ih =>
    simp only [mapO] at h
    cases hfa : f a with
    | none => rw [hfa] at h; simp at h
    | some b =>
      rw [hfa] at h
      cases hmt : mapO f t with
      | none => rw [hmt] at h; simp at h
      | some r2 =>
        rw [hmt] at h
        simp only [Option.some.injEq] at h
        subst h
        intro r hr
        rcases List.mem_cons.mp hr with h1 | h2
        · exact ⟨a, List.mem_cons_self a t, h1 ▸ hfa⟩
        · rcases ih r2 hmt r h2 with ⟨x, hx, hfx⟩
          exact ⟨x, List.mem_cons_of_mem a hx, hfx⟩

/-- In-range indices always produce a row (the `dim = 0` edge case succeeds
through the broadcast branch). -/
theorem idx2visRow_isSome (i dim : ℕ) (h : i < 2 ^ dim) :
    (idx2visRow i dim).isSome = true := by
  rcases idx2visRow_roundtrip i dim h with ⟨row, hrow, _⟩
  rw [hrow]; rfl

/-- For `dim ≥ 1`, a row is produced exactly when the index is in range. -/
theorem idx2visRow_isSome_iff (i dim : ℕ) (hdim : 1 ≤ dim) :
    (idx2visRow i dim).isSome = true ↔ i < 2 ^ dim := by
  constructor
  · intro h
    unfold idx2visRow at h
    by_cases hlen : (pyBits i).length ≤ dim
    · exact lt_pow_of_pyBits_length_le i dim hlen
    · rw [if_neg hlen] at h
      by_cases h1 : (pyBits i).length = 1
      · omega
      · rw [if_neg h1] at h; simp at h
  · exact idx2visRow_isSome i dim

/-- Every row `idx2visRow` produces for `dim ≥ 1` has length `dim`. -/
theorem idx2visRow_length (i dim : ℕ) (row : List ℕ)
    (h : idx2visRow i dim = some row) : row.length = dim ∨ (dim = 0 ∧ row = []) := by
  unfold idx2visRow at h
  by_cases hlen : (pyBits i).length ≤ dim
  · rw [if_pos hlen] at h
    left
    simp only [Option.some.injEq] at h
    subst h
    simp only [List.length_append, List.length_replicate]
    omega
  · rw [if_neg hlen] at h
    by_cases h1 : (pyBits i).length = 1
    · rw [if_pos h1] at h
      simp only [Option.some.injEq] at h
      subst h
      left; simp
    · rw [if_neg h1] at h; simp at h

/-- Modelled from the spec: the physicist's Hermite polynomial `H_n`, the
basis in which `numpy.polynomial.hermite.hermval` evaluates a series
(`H_0 = 1`, `H_1(x) = 2x`, `H_{k+2}(x) = 2x·H_{k+1}(x) − 2(k+1)·H_k(x)`). -/
def hermiteH : ℕ → ℝ → ℝ
  | 0, _ => 1
  | 1, x => 2 * x
  | k + 2, x => 2 * x * hermiteH (k + 1) x - 2 * (k + 1) * hermiteH k x

/-- Modelled from the spec: `numpy.polynomial.hermite.hermval` evaluates the
Hermite series with the given coefficient list at one point; in exact
arithmetic its Clenshaw recursion computes exactly this sum. -/
noncomputable def hermSeries (coef : List ℝ) (x : ℝ) : ℝ :=
  ∑ k ∈ Finset.range coef.length, coef.getD k 0 * hermiteH k x

/-- The `coef` vector built in the loop of `count_hermvals` (line 180-181):
`np.zeros(n[-1] + 1)` with a single 1 written at position `nval`. -/
def oneHot (len pos : ℕ) : List ℝ :=
  (List.range len).map (fun j => if j = pos then 1 else 0)

theorem oneHot_length (len pos : ℕ) : (oneHot len pos).length = len := by
  simp [oneHot]

theorem oneHot_getD (len pos k : ℕ) (hk : k < len) :
    (oneHot len pos).getD k 0 = if k = pos then 1 else 0 := by
  unfold oneHot
  rw [List.getD_eq_getElem _ _ (by simpa using hk)]
  simp

/-- A one-hot Hermite series is the single Hermite polynomial it selects. -/
theorem hermSeries_oneHot (len pos : ℕ) (hpos : pos < len) (x : ℝ) :
    hermSeries (oneHot len pos) x = hermiteH pos x := by
  unfold hermSeries
  rw [oneHot_length]
  rw [Finset.sum_congr rfl (fun k hk => by
    rw [oneHot_getD len pos k (Finset.mem_range.mp hk)])]
  simp only [ite_mul, one_mul, zero_mul]
  rw [Finset.sum_ite_eq' (Finset.range len) pos (fun k => hermiteH k x)]
  simp [hpos]

/-- Embedding of `count_hermvals` (`tomograph.py`, lines 176-183).  The
result is kept in the source's `[len x, len n]` orientation: row `i` holds
the requested Hermite values at `x_i`.  The coefficient vector for every
requested degree has length `n[-1] + 1` (the **last** requested degree plus
one); writing the 1 at position `nval` raises `IndexError` when
`nval > n[-1]`, and an empty index list makes `n[-1]` itself raise. -/
noncomputable def count_hermvals (n : List ℕ) (x : List ℝ) : Option (List (List ℝ)) :=
  if n.isEmpty then none
  else
    match mapO (fun nval =>
        if nval < n.getLastD 0 + 1 then some (oneHot (n.getLastD 0 + 1) nval)
        else none) n with
    | none => none
    | some coefs => some (x.map (fun xv => coefs.map (fun c => hermSeries c xv)))

/-- Modelled from the spec: `factorial` (lines 186-188) computes
`exp(lgamma(x + 1))`, i.e. the gamma-function identity `n! = Γ(n+1)`. -/
noncomputable def gammaFactorial (nv : ℕ) : ℝ :=
  Real.Gamma ((nv : ℝ) + 1)

/-- Embedding of `encode_data` (`tomograph.py`, lines 131-161): the
amplitude matrix scales the Hermite values by
`exp(−x²/2) / sqrt(2^n · n!) / π^(1/4)`, the phase matrix is the outer
product `theta_i · n_j`.  A failure inside `count_hermvals` aborts the call
before either matrix is produced. -/
noncomputable def encode_data (fock : List ℕ) (x theta : List ℝ) :
    Option (List (List ℝ) × List (List ℝ)) :=
  match count_hermvals fock x with
  | none => none
  | some hv =>
    let amplitude := List.zipWith (fun hrow xv =>
      List.zipWith (fun hval nv =>
        hval * Real.exp (-(xv ^ 2) / 2)
          / Real.sqrt ((2 : ℝ) ^ nv * gammaFactorial nv)
          / Real.pi ^ ((1 : ℝ) / 4)) hrow fock) hv x
    let phase := theta.map (fun t => fock.map (fun (nv : ℕ) => t * (nv : ℝ)))
    some (amplitude, phase)

/-- Embedding of the `Tomograph` model state (constructor, lines 37-52).
The two `RBM` collaborators are not part of the repository; modelled from
the spec's contract (§4.3) they are abstract per-row unnormalized
probability functions plus a Gibbs sampler on the amplitude RBM. -/
structure Tomograph where
  vis_size : ℕ
  hid_size : ℕ
  gibbs : Bool
  n_samples : ℕ
  n_gibbs_steps : ℕ
  eps : ℝ
  ampProb : List ℕ → ℝ
  phaseProb : List ℕ → ℝ
  sample : List (List ℕ) → ℕ → List (List ℕ)

/-- The shared amplitude/phase computation of `forward` and `predict`
(lines 61-65 and 75-79): `amplitude = sqrt(prob / prob.sum())`,
`phase = log(prob + eps) / 2`, elementwise over the visible batch. -/
noncomputable def ampPhase (T : Tomograph) (vis : List (List ℕ)) :
    List ℝ × List ℝ :=
  let ap := vis.map T.ampProb
  let amplitude := ap.map (fun p => Real.sqrt (p / ap.sum))
  let pp := vis.map T.phaseProb
  let phase := pp.map (fun p => Real.log (p + T.eps) / 2)
  (amplitude, phase)

/-- The full-basis visible batch `idx2vis(torch.arange(2 ** vis_size),
vis_size)` built by `forward`'s enumeration branch, `predict` and `fit`. -/
def enumBasis (dim : ℕ) : Option (List (List ℕ)) :=
  idx2vis (List.range (2 ^ dim)) dim

/-- Total description of the full-basis batch (used to state that the
enumeration never fails). -/
def basisList (dim : ℕ) : List (List ℕ) :=
  (List.range (2 ^ dim)).map (fun i => (idx2visRow i dim).getD [])

theorem enumBasis_eq (dim : ℕ) : enumBasis dim = some (basisList dim) := by
  unfold enumBasis idx2vis basisList
  exact mapO_eq_some_map _ _ []
    (fun i hi => idx2visRow_isSome i dim (List.mem_range.mp hi))

/-- Embedding of `Tomograph.forward` (lines 54-69). -/
noncomputable def forward (T : Tomograph) (vis : List (List ℕ)) :
    Option ((List ℝ × List ℝ) × List (List ℕ)) :=
  if T.gibbs then
    let v := T.sample vis T.n_gibbs_steps
    some (ampPhase T v, v)
  else
    match enumBasis T.vis_size with
    | none => none
    | some v => some (ampPhase T v, v)

/-- Total version of `forward`, equal to it everywhere (the enumeration
branch never fails). -/
noncomputable def forwardT (T : Tomograph) (vis : List (List ℕ)) :
    (List ℝ × List ℝ) × List (List ℕ) :=
  if T.gibbs then
    let v := T.sample vis T.n_gibbs_steps
    (ampPhase T v, v)
  else
    let v := basisList T.vis_size
    (ampPhase T v, v)

theorem forward_eq (T : Tomograph) (vis : List (List ℕ)) :
    forward T vis = some (forwardT T vis) := by
  unfold forward forwardT
  cases hg : T.gibbs with
  | true => simp
  | false => simp [enumBasis_eq]

/-- Embedding of `Tomograph.predict` (lines 71-81). -/
noncomputable def predict (T : Tomograph) : Option (List ℝ × List ℝ) :=
  match enumBasis T.vis_size with
  | none => none
  | some vis => some (ampPhase T vis)

/-- Per-row likelihood of `loss` (lines 87-91):
`(Σ amp·cos φ)² + (Σ amp·sin φ)²` with `amp = data_amp · pred_amp` and
`φ = data_phase − pred_phase`, elementwise along the basis-index axis. -/
noncomputable def rowLikelihood (pA pP aRow pRow : List ℝ) : ℝ :=
  let amps := List.zipWith (fun a b => a * b) aRow pA
  let phis := List.zipWith (fun a b => a - b) pRow pP
  (List.zipWith (fun a f => a * Real.cos f) amps phis).sum ^ 2
    + (List.zipWith (fun a f => a * Real.sin f) amps phis).sum ^ 2

/-- Embedding of `Tomograph.loss` (lines 83-93):
`−mean(log(likelihood + eps))` over the data rows. -/
noncomputable def lossFn (eps : ℝ) (dA dP : List (List ℝ)) (pA pP : List ℝ) : ℝ :=
  let liks := List.zipWith (fun aRow pRow => rowLikelihood pA pP aRow pRow) dA dP
  let logs := liks.map (fun L => Real.log (L + eps))
  Neg.neg (logs.sum / (liks.length : ℝ))

/-- State-threaded rendering of the body of `predict`: every step reads
fields of `self`; no statement assigns to any field, so the state out is
the state in. -/
noncomputable def predictState (s : Tomograph) :
    Option (List ℝ × List ℝ) × Tomograph :=
  match enumBasis s.vis_size with
  | none => (none, s)
  | some vis =>
    let ap := vis.map s.ampProb
    let amplitude := ap.map (fun p => Real.sqrt (p / ap.sum))
    let pp := vis.map s.phaseProb
    let phase := pp.map (fun p => Real.log (p + s.eps) / 2)
    (some (amplitude, phase), s)

/-- State-threaded rendering of the body of `loss`: it reads `self._eps`
and assigns to no field. -/
noncomputable def lossState (s : Tomograph) (dA dP : List (List ℝ))
    (pA pP : List ℝ) : ℝ × Tomograph :=
  (lossFn s.eps dA dP pA pP, s)

/-- The column slice `encoded_data[k][:, sampled_indices]` (lines 110-111). -/
def sliceCols (m : List (List ℝ)) (idxs : List ℕ) : List (List ℝ) :=
  m.map (fun row => idxs.map (fun j => row.getD j 0))

/-- One per-epoch log record (lines 120-124). -/
structure EpochLog where
  epoch : ℕ
  n_epochs : ℕ
  loss : ℝ

/-- One iteration of the `fit` loop (lines 104-118): forward pass, decode
the sampled indices, slice the encoded data, compute the loss, and apply
one optimizer step.  The optimizer update is external torch autograd
machinery; modelled from the spec it is an abstract parameter update `upd`
applied to the model given the epoch's loss. -/
noncomputable def fitStep (upd : Tomograph → ℝ → Tomograph)
    (encA encP : List (List ℝ)) (st : Tomograph × List (List ℕ)) :
    Option ((Tomograph × List (List ℕ)) × ℝ) :=
  match forward st.1 st.2 with
  | none => none
  | some (ps, vis) =>
    let sampled := vis2idx vis
    let dA := sliceCols encA sampled
    let dP := sliceCols encP sampled
    let l := lossFn st.1.eps dA dP ps.1 ps.2
    some ((upd st.1 l, vis), l)

/-- Total version of `fitStep` (the forward pass never fails). -/
noncomputable def fitStepT (upd : Tomograph → ℝ → Tomograph)
    (encA encP : List (List ℝ)) (st : Tomograph × List (List ℕ)) :
    (Tomograph × List (List ℕ)) × ℝ :=
  let fwd := forwardT st.1 st.2
  let sampled := vis2idx fwd.2
  let dA := sliceCols encA sampled
  let dP := sliceCols encP sampled
  let l := lossFn st.1.eps dA dP fwd.1.1 fwd.1.2
  ((upd st.1 l, fwd.2), l)

theorem fitStep_eq (upd : Tomograph → ℝ → Tomograph)
    (encA encP : List (List ℝ)) (st : Tomograph × List (List ℕ)) :
    fitStep upd encA encP st = some (fitStepT upd encA encP st) := by
  unfold fitStep fitStepT
  rw [forward_eq]

/-- The sequence of (model, chain) states reached by the `fit` loop. -/
noncomputable def stateSeq (upd : Tomograph → ℝ → Tomograph)
    (encA encP : List (List ℝ)) (st0 : Tomograph × List (List ℕ)) :
    ℕ → Tomograph × List (List ℕ)
  | 0 => st0
  | m + 1 => (fitStepT upd encA encP (stateSeq upd encA encP st0 m)).1

theorem stateSeq_shift (upd : Tomograph → ℝ → Tomograph)
    (encA encP : List (List ℝ)) (st0 : Tomograph × List (List ℕ)) (m : ℕ) :
    stateSeq upd encA encP st0 (m + 1) =
      stateSeq upd encA encP ((fitStepT upd encA encP st0).1) m := by
  induction m with
  | zero => rfl
  | succ k ih => rw [stateSeq, ih, stateSeq]

/-- The training loop of `fit` (lines 104-128): runs the remaining number
of epochs, collecting the per-epoch log records handed to the callbacks. -/
noncomputable def fitGo (upd : Tomograph → ℝ → Tomograph)
    (encA encP : List (List ℝ)) (total : ℕ) :
    ℕ → ℕ → Tomograph × List (List ℕ) → Option (List EpochLog)
  | 0, _, _ => some []
  | k + 1, e, st =>
    match fitStep upd encA encP st with
    | none => none
    | some (st2, l) =>
      match fitGo upd encA encP total k (e + 1) st2 with
      | none => none
      | some rest => some ({ epoch := e, n_epochs := total, loss := l } :: rest)

/-- Embedding of `Tomograph.fit` (lines 95-128).  The draw of the initial
random chain indices (`torch.randint`, line 101) is external randomness,
passed in as `initIdx`; `x` and `theta` are the measurement batch. -/
noncomputable def fit (T : Tomograph) (upd : Tomograph → ℝ → Tomograph)
    (x theta : List ℝ) (nEpochs : ℕ) (initIdx : List ℕ) :
    Option (List EpochLog) :=
  match encode_data (List.range (2 ^ T.vis_size)) x theta with
  | none => none
  | some enc =>
    match idx2vis initIdx T.vis_size with
    | none => none
    | some vis0 => fitGo upd enc.1 enc.2 nEpochs nEpochs 0 (T, vis0)

/-- The loss value computed in iteration `m` of `fit` (the scalar handed to
the callbacks in record `m`). -/
noncomputable def fitLossSeq (T : Tomograph) (upd : Tomograph → ℝ → Tomograph)
    (x theta : List ℝ) (initIdx : List ℕ) (m : ℕ) : ℝ :=
  let enc := (encode_data (List.range (2 ^ T.vis_size)) x theta).getD ([], [])
  let vis0 := (idx2vis initIdx T.vis_size).getD []
  (fitStepT upd enc.1 enc.2 (stateSeq upd enc.1 enc.2 (T, vis0) m)).2

theorem ampPhase_fst (T : Tomograph) (vis : List (List ℕ)) :
    (ampPhase T vis).1 = (vis.map T.ampProb).map
      (fun p => Real.sqrt (p / (vis.map T.ampProb).sum)) := rfl

theorem sum_map_div (l : List ℝ) (c : ℝ) :
    (l.map (fun p => p / c)).sum = l.sum / c := by
  induction l with
  | nil => simp
  | cons a t ih => simp [ih, add_div]

theorem basisList_ne_nil (dim : ℕ) : basisList dim ≠ [] := by
  have h2 : 0 < 2 ^ dim := Nat.pos_pow_of_pos dim (by norm_num)
  unfold basisList
  intro h
  rw [List.map_eq_nil_iff, List.range_eq_nil] at h
  omega

theorem idx2vis_isSome_of_lt (idx : List ℕ) (dim : ℕ)
    (h : ∀ i ∈ idx, i < 2 ^ dim) : ∃ v, idx2vis idx dim = some v := by
  have hs : (idx2vis idx dim).isSome = true :=
    (mapO_isSome_iff _ idx).mpr (fun a ha => idx2visRow_isSome a dim (h a ha))
  exact Option.isSome_iff_exists.mp hs

/-- Claim C1: for every dimension `dim` and every index `0 ≤ i < 2^dim`,
converting `i` to its bit vector and back is the identity:
`vis2idx(idx2vis([i], dim)) == i`. -/
theorem claim_C1 (dim i : ℕ) (h : i < 2 ^ dim) :
    ∃ rows, idx2vis [i] dim = some rows ∧ vis2idx rows = [i] := by
  rcases idx2visRow_roundtrip i dim h with ⟨row, hrow, hdec⟩
  refine ⟨[row], ?_, ?_⟩
  · simp [idx2vis, mapO, hrow]
  · simp [vis2idx, hdec]

/-- Concrete instance of claim C1 at `dim = 3`, `i = 5`. -/
theorem claim_C1_witness :
    ∃ rows, idx2vis [5] 3 = some rows ∧ vis2idx rows = [5] :=
  claim_C1 3 5 (by decide)

/-- Counterexample to claim C9 as stated: at `dim = 0` the index `1` is out
of range (`1 ≥ 2^0`) yet the row assignment broadcasts a singleton into the
empty slice instead of raising, so `idx2vis` silently returns a wrong
(empty) vector that decodes to `0`, not `1`. -/
theorem pyBits_one : pyBits 1 = [1] := by
  unfold pyBits
  rw [if_neg (by norm_num),
    Nat.digits_def' (by norm_num : (1 : ℕ) < 2) (by norm_num : 0 < 1)]
  norm_num

theorem claim_C9_counterexample :
    idx2vis [1] 0 = some [[]] ∧ ¬ (1 < 2 ^ 0) ∧ vis2idx [[]] = [0] := by
  have h1 : idx2visRow 1 0 = some [] := by
    unfold idx2visRow
    rw [pyBits_one]
    norm_num
  exact ⟨by simp [idx2vis, mapO, h1], by decide, by decide⟩

/-- Claim C9 (amended to `dim ≥ 1`): `idx2vis` returns a batch of
length-`dim` vectors exactly when every input index satisfies
`0 ≤ i < 2^dim`; an index with `i ≥ 2^dim` makes the row assignment fail
rather than truncate bits or silently return a wrong vector. -/
theorem claim_C9_amended (idx : List ℕ) (dim : ℕ) (hdim : 1 ≤ dim) :
    ((idx2vis idx dim).isSome = true ↔ ∀ i ∈ idx, i < 2 ^ dim) ∧
    (∀ rows, idx2vis idx dim = some rows → ∀ r ∈ rows, r.length = dim) := by
  constructor
  · rw [idx2vis, mapO_isSome_iff]
    exact ⟨fun h i hi => (idx2visRow_isSome_iff i dim hdim).mp (h i hi),
           fun h i hi => (idx2visRow_isSome_iff i dim hdim).mpr (h i hi)⟩
  · intro rows hrows r hr
    rcases mapO_mem_of_eq_some _ _ _ hrows r hr with ⟨a, _, hfa⟩
    rcases idx2visRow_length a dim r hfa with h1 | ⟨h0, _⟩
    · exact h1
    · omega

/-- Concrete instance of the amended claim C9 at `dim = 1`. -/
theorem claim_C9_witness :
    ((idx2vis [0, 1] 1).isSome = true ↔ ∀ i ∈ [0, 1], i < 2 ^ 1) ∧
    (∀ rows, idx2vis [0, 1] 1 = some rows → ∀ r ∈ rows, r.length = 1) :=
  claim_C9_amended [0, 1] 1 (by decide)

/-- Claim C2: whenever the amplitude RBM's unnormalized probability is
strictly positive on the full `2^vis_size` basis, the amplitude vector
returned by `predict()` has squared entries summing exactly to 1 in real
arithmetic, for any (trained or untrained) parameter state. -/
theorem claim_C2 (T : Tomograph)
    (hpos : ∀ r ∈ (enumBasis T.vis_size).getD [], 0 < T.ampProb r) :
    ∃ a p, predict T = some (a, p) ∧ (a.map (fun t => t ^ 2)).sum = 1 := by
  have henum := enumBasis_eq T.vis_size
  rw [henum, Option.getD_some] at hpos
  have hpred : predict T = some (ampPhase T (basisList T.vis_size)) := by
    unfold predict
    rw [henum]
  refine ⟨_, _, hpred, ?_⟩
  show (List.map (fun t => t ^ 2)
      (List.map (fun p => Real.sqrt (p / (List.map T.ampProb (basisList T.vis_size)).sum))
        (List.map T.ampProb (basisList T.vis_size)))).sum = 1
  rw [List.map_map]
  have hpos2 : ∀ p ∈ (basisList T.vis_size).map T.ampProb, 0 < p := by
    intro p hp
    rcases List.mem_map.mp hp with ⟨r, hr, rfl⟩
    exact hpos r hr
  have hapne : (basisList T.vis_size).map T.ampProb ≠ [] := by
    simp [basisList_ne_nil]
  have hs : 0 < ((basisList T.vis_size).map T.ampProb).sum :=
    List.sum_pos _ hpos2 hapne
  rw [List.map_congr_left (fun p hp => by
    show ((fun t => t ^ 2) ∘ fun q =>
      Real.sqrt (q / ((basisList T.vis_size).map T.ampProb).sum)) p = p / ((basisList T.vis_size).map T.ampProb).sum
    simp only [Function.comp_apply]
    exact Real.sq_sqrt (div_nonneg (le_of_lt (hpos2 p hp)) (le_of_lt hs)))]
  rw [sum_map_div, div_self (ne_of_gt hs)]

/-- A demonstration model: one visible and one hidden unit, enumeration
mode, constant unit RBM probabilities, identity sampler. -/
noncomputable def demoT : Tomograph :=
  ⟨1, 1, false, 2, 1, 1, fun _ => 1, fun _ => 1, fun v _ => v⟩

/-- Concrete instance of claim C2 on the demonstration model. -/
theorem claim_C2_witness :
    ∃ a p, predict demoT = some (a, p) ∧ (a.map (fun t => t ^ 2)).sum = 1 :=
  claim_C2 demoT (fun _ _ => one_pos)

theorem zipWith_sub_shift (c : ℝ) : ∀ l1 l2 : List ℝ,
    List.zipWith (fun a b => a - b) (l1.map (fun v => v + c))
        (l2.map (fun v => v + c))
      = List.zipWith (fun a b => a - b) l1 l2 := by
  intro l1
  induction l1 with
  | nil => intro l2; rfl
  | cons a t ih =>
    intro l2
    cases l2 with
    | nil => rfl
    | cons b t2 => simp [ih t2]

theorem rowLikelihood_shift (c : ℝ) (pA pP aRow pRow : List ℝ) :
    rowLikelihood pA (pP.map (fun v => v + c)) aRow (pRow.map (fun v => v + c))
      = rowLikelihood pA pP aRow pRow := by
  unfold rowLikelihood
  rw [zipWith_sub_shift]

/-- Claim C3: the loss is invariant under a global phase shift — adding the
same constant to every entry of the predicted phase vector and of the data
phase matrix leaves `loss(data_states, predicted_state)` unchanged. -/
theorem claim_C3 (eps c : ℝ) (dA dP : List (List ℝ)) (pA pP : List ℝ) :
    lossFn eps dA (dP.map (fun row => row.map (fun v => v + c)))
        pA (pP.map (fun v => v + c))
      = lossFn eps dA dP pA pP := by
  unfold lossFn
  rw [List.zipWith_map_right]
  simp only [rowLikelihood_shift]

theorem getD_map_lt (f : α → β) (l : List α) (i : ℕ) (d : β) (d2 : α)
    (h : i < l.length) : (l.map f).getD i d = f (l.getD i d2) := by
  rw [List.getD_eq_getElem _ _ (by simpa using h), List.getElem_map,
    List.getD_eq_getElem _ _ h]

theorem sum_map_const (l : List ℝ) (c : ℝ) :
    (l.map (fun _ => c)).sum = (l.length : ℝ) * c := by
  induction l with
  | nil => simp
  | cons a t ih =>
    simp only [List.map_cons, List.sum_cons, ih, List.length_cons, Nat.cast_succ]
    ring

/-- Claim C6: on every input where every per-row likelihood is exactly 0,
the loss is exactly `−log(eps)`, a finite value — the additive `eps` inside
the logarithm is the only clamping. -/
theorem claim_C6 (eps : ℝ) (dA dP : List (List ℝ)) (pA pP : List ℝ)
    (hne : List.zipWith (fun aRow pRow => rowLikelihood pA pP aRow pRow) dA dP ≠ [])
    (h0 : ∀ L ∈ List.zipWith (fun aRow pRow => rowLikelihood pA pP aRow pRow) dA dP,
      L = 0) :
    lossFn eps dA dP pA pP = -Real.log eps := by
  simp only [lossFn]
  have hmap : (List.zipWith (fun aRow pRow => rowLikelihood pA pP aRow pRow) dA dP).map
        (fun L => Real.log (L + eps))
      = (List.zipWith (fun aRow pRow => rowLikelihood pA pP aRow pRow) dA dP).map
        (fun _ => Real.log eps) :=
    List.map_congr_left (fun L hL => by rw [h0 L hL, zero_add])
  rw [hmap, sum_map_const]
  have hlen : ((List.zipWith (fun aRow pRow =>
      rowLikelihood pA pP aRow pRow) dA dP).length : ℝ) ≠ 0 := by
    rw [Nat.cast_ne_zero]
    intro hc
    exact hne (List.length_eq_zero.mp hc)
  rw [mul_comm, mul_div_assoc, div_self hlen, mul_one]

/-- Concrete instance of claim C6: a single orthogonal data row (zero
amplitude) gives likelihood exactly 0 and loss `−log(1)`. -/
theorem claim_C6_witness :
    lossFn 1 [[0]] [[0]] [1] [0] = -Real.log 1 :=
  claim_C6 1 [[0]] [[0]] [1] [0] (by simp)
    (by
      intro L hL
      simp only [List.zipWith_cons_cons, List.zipWith_nil_left,
        List.mem_singleton] at hL
      subst hL
      simp [rowLikelihood])

/-- When every requested degree is at most the last one, `count_hermvals`
succeeds and returns the full matrix of one-hot Hermite series values. -/
theorem count_hermvals_le_last (n : List ℕ) (x : List ℝ) (hne : n.isEmpty = false)
    (hle : ∀ v ∈ n, v ≤ n.getLastD 0) :
    count_hermvals n x = some (x.map (fun xv =>
      (n.map (fun v => oneHot (n.getLastD 0 + 1) v)).map
        (fun c => hermSeries c xv))) := by
  have hmap := mapO_eq_some_map (fun v => if v < n.getLastD 0 + 1
      then some (oneHot (n.getLastD 0 + 1) v) else none) n ([] : List ℝ)
    (fun v hv => by
      show (if v < n.getLastD 0 + 1 then some (oneHot (n.getLastD 0 + 1) v)
        else none).isSome = true
      rw [if_pos (Nat.lt_succ_of_le (hle v hv))]
      rfl)
  have hcoefs : n.map (fun v => (if v < n.getLastD 0 + 1
        then some (oneHot (n.getLastD 0 + 1) v) else none).getD ([] : List ℝ))
      = n.map (fun v => oneHot (n.getLastD 0 + 1) v) :=
    List.map_congr_left (fun v hv => by
      rw [if_pos (Nat.lt_succ_of_le (hle v hv)), Option.getD_some])
  unfold count_hermvals
  rw [if_neg (by simp [hne]), hmap, hcoefs]

/-- Counterexample to claim C4 as stated: for the index list `[1, 0]` the
coefficient vector is sized from the last element (`0`), so writing the 1
at position `1` is out of bounds and the call raises instead of evaluating
`H_1`. -/
theorem claim_C4_counterexample : count_hermvals [1, 0] [(0 : ℝ)] = none := by
  rfl

/-- Claim C4 (amended): for every non-empty list of fock indices in which
every element is at most the **last** element (in particular any ascending
list, as `encode_data` receives from `arange`), the coefficient vector is
one-hot at position `n` with length `n[-1] + 1` covering every requested
degree, every index is in bounds, and the Hermite polynomial `H_n` is
evaluated at every `x` value. -/
theorem claim_C4_amended (n : List ℕ) (x : List ℝ) (hne : n ≠ [])
    (hle : ∀ v ∈ n, v ≤ n.getLastD 0) :
    ∃ m, count_hermvals n x = some m ∧ m.length = x.length ∧
      ∀ i j, i < x.length → j < n.length →
        (m.getD i []).getD j 0 = hermiteH (n.getD j 0) (x.getD i 0) := by
  have hne2 : n.isEmpty = false := by
    cases n with
    | nil => simp at hne
    | cons a t => rfl
  rw [count_hermvals_le_last n x hne2 hle]
  refine ⟨_, rfl, by simp, ?_⟩
  intro i j hi hj
  rw [getD_map_lt _ x i [] 0 hi]
  rw [getD_map_lt _ (n.map (fun v => oneHot (n.getLastD 0 + 1) v)) j 0 []
    (by simpa using hj)]
  rw [getD_map_lt _ n j [] 0 hj]
  exact hermSeries_oneHot _ _ (Nat.lt_succ_of_le (hle _ (by
    rw [List.getD_eq_getElem _ _ hj]
    exact List.getElem_mem _))) _

/-- Concrete instance of the amended claim C4 on the ascending list `[0, 1]`. -/
theorem claim_C4_witness :
    ∃ m, count_hermvals [0, 1] [(0 : ℝ)] = some m ∧
      m.length = [(0 : ℝ)].length ∧
      ∀ i j, i < [(0 : ℝ)].length → j < [0, 1].length →
        (m.getD i []).getD j 0 = hermiteH ([0, 1].getD j 0) ([(0 : ℝ)].getD i 0) :=
  claim_C4_amended [0, 1] [(0 : ℝ)] (by decide) (by decide)

/-- Claim C7: the phase matrix returned by `encode_data` satisfies
`phase[i, n] = theta_i · n` for all rows `i` and requested degrees `n`,
with no wraparound or reduction modulo `2π`. -/
theorem claim_C7 (fock : List ℕ) (x theta : List ℝ) (i j : ℕ)
    (hsome : (encode_data fock x theta).isSome = true)
    (hi : i < theta.length) (hj : j < fock.length) :
    (((encode_data fock x theta).getD ([], [])).2.getD i []).getD j 0
      = theta.getD i 0 * ((fock.getD j 0 : ℕ) : ℝ) := by
  unfold encode_data at hsome ⊢
  cases hch : count_hermvals fock x with
  | none => rw [hch] at hsome; simp at hsome
  | some hv =>
    show ((theta.map (fun t =>
        fock.map (fun (nv : ℕ) => t * (nv : ℝ)))).getD i []).getD j 0
      = theta.getD i 0 * ((fock.getD j 0 : ℕ) : ℝ)
    rw [getD_map_lt _ theta i [] 0 hi]
    rw [getD_map_lt _ fock j 0 0 hj]

/-- Concrete instance of claim C7: a single degree-0 index with `theta = 2`
gives phase entry `2 · 0`. -/
theorem claim_C7_witness :
    (((encode_data [0] [(0 : ℝ)] [(2 : ℝ)]).getD ([], [])).2.getD 0 []).getD 0 0
      = [(2 : ℝ)].getD 0 0 * (([0].getD 0 0 : ℕ) : ℝ) :=
  claim_C7 [0] [(0 : ℝ)] [(2 : ℝ)] 0 0 (by rfl) (by simp) (by simp)

theorem forward_indep (T : Tomograph) (hg : T.gibbs = false)
    (vA vB : List (List ℕ)) : forward T vA = forward T vB := by
  simp [forward, hg]

theorem fitStep_indep (upd : Tomograph → ℝ → Tomograph)
    (eA eP : List (List ℝ)) (T : Tomograph) (vA vB : List (List ℕ))
    (hg : T.gibbs = false) :
    fitStep upd eA eP (T, vA) = fitStep upd eA eP (T, vB) := by
  unfold fitStep
  rw [forward_indep T hg vA vB]

theorem fitGo_indep (upd : Tomograph → ℝ → Tomograph)
    (eA eP : List (List ℝ)) (total : ℕ) (T : Tomograph)
    (vA vB : List (List ℕ)) (hg : T.gibbs = false) :
    ∀ k e : ℕ,
      fitGo upd eA eP total k e (T, vA) = fitGo upd eA eP total k e (T, vB) := by
  intro k e
  cases k with
  | zero => rfl
  | succ k =>
    unfold fitGo
    rw [fitStep_indep upd eA eP T vA vB hg]

/-- Claim C5: with `gibbs = False`, `forward`'s result is the same for
every input batch — the returned visible batch is always the full
`2^vis_size` enumeration — so the initial random chain state built by
`fit` before the loop never influences any epoch. -/
theorem claim_C5 (T : Tomograph) (upd : Tomograph → ℝ → Tomograph)
    (x theta : List ℝ) (nE : ℕ) (i1 i2 : List ℕ) (v1 v2 : List (List ℕ))
    (hg : T.gibbs = false)
    (h1 : ∀ i ∈ i1, i < 2 ^ T.vis_size) (h2 : ∀ i ∈ i2, i < 2 ^ T.vis_size) :
    forward T v1 = forward T v2 ∧
    (forwardT T v1).2 = basisList T.vis_size ∧
    fit T upd x theta nE i1 = fit T upd x theta nE i2 := by
  refine ⟨forward_indep T hg v1 v2, by simp [forwardT, hg], ?_⟩
  unfold fit
  cases henc : encode_data (List.range (2 ^ T.vis_size)) x theta with
  | none => rfl
  | some enc =>
    rcases idx2vis_isSome_of_lt i1 T.vis_size h1 with ⟨w1, hw1⟩
    rcases idx2vis_isSome_of_lt i2 T.vis_size h2 with ⟨w2, hw2⟩
    rw [hw1, hw2]
    exact fitGo_indep upd enc.1 enc.2 nE T w1 w2 hg nE 0

/-- Concrete instance of claim C5 on the demonstration model: two unrelated
initial batches and two unrelated initial index draws. -/
theorem claim_C5_witness :
    forward demoT [[0]] = forward demoT [[1, 1]] ∧
    (forwardT demoT [[0]]).2 = basisList demoT.vis_size ∧
    fit demoT (fun t _ => t) [(0 : ℝ)] [(0 : ℝ)] 1 [0]
      = fit demoT (fun t _ => t) [(0 : ℝ)] [(0 : ℝ)] 1 [1] :=
  claim_C5 demoT (fun t _ => t) [(0 : ℝ)] [(0 : ℝ)] 1 [0] [1]
    [[0]] [[1, 1]] rfl (by decide) (by decide)

theorem range_getLastD (k : ℕ) : (List.range (k + 1)).getLastD 0 = k := by
  rw [List.range_succ, List.getLastD_eq_getLast?, List.getLast?_concat]
  rfl

theorem range_le_getLastD (d : ℕ) :
    ∀ v ∈ List.range (2 ^ d), v ≤ (List.range (2 ^ d)).getLastD 0 := by
  intro v hv
  have h2 : 0 < 2 ^ d := Nat.pos_pow_of_pos d (by norm_num)
  obtain ⟨k, hk⟩ : ∃ k, 2 ^ d = k + 1 := ⟨2 ^ d - 1, by omega⟩
  rw [hk] at hv ⊢
  rw [range_getLastD]
  exact Nat.lt_succ_iff.mp (List.mem_range.mp hv)

/-- `encode_data` always succeeds on the ascending full-basis index range
that `fit` passes it. -/
theorem encode_data_range (d : ℕ) (x theta : List ℝ) :
    ∃ eA eP, encode_data (List.range (2 ^ d)) x theta = some (eA, eP) := by
  have h2 : 0 < 2 ^ d := Nat.pos_pow_of_pos d (by norm_num)
  have hne : (List.range (2 ^ d)).isEmpty = false := by
    cases hr : List.range (2 ^ d) with
    | nil =>
      exfalso
      have := List.range_eq_nil.mp hr
      omega
    | cons a t => rfl
  unfold encode_data
  rw [count_hermvals_le_last _ x hne (range_le_getLastD d)]
  exact ⟨_, _, rfl⟩

theorem fitGo_succ (upd : Tomograph → ℝ → Tomograph)
    (eA eP : List (List ℝ)) (total k e : ℕ) (st : Tomograph × List (List ℕ)) :
    fitGo upd eA eP total (k + 1) e st =
      match fitGo upd eA eP total k (e + 1) ((fitStepT upd eA eP st).1) with
      | none => none
      | some rest =>
        some (EpochLog.mk e total (fitStepT upd eA eP st).2 :: rest) := by
  show (match fitStep upd eA eP st with
    | none => none
    | some (st2, l) =>
      match fitGo upd eA eP total k (e + 1) st2 with
      | none => none
      | some rest => some (EpochLog.mk e total l :: rest)) = _
  rcases hv : fitStepT upd eA eP st with ⟨st2, l⟩
  rw [fitStep_eq, hv]

/-- The `fit` loop always succeeds, runs exactly `k` iterations, and logs
epoch `e + m` with the loss of iteration `m` in record `m`. -/
theorem fitGo_eq_some (upd : Tomograph → ℝ → Tomograph)
    (eA eP : List (List ℝ)) (total : ℕ) :
    ∀ (k e : ℕ) (st : Tomograph × List (List ℕ)),
      fitGo upd eA eP total k e st = some ((List.range k).map (fun m =>
        EpochLog.mk (e + m) total
          (fitStepT upd eA eP (stateSeq upd eA eP st m)).2)) := by
  intro k
  induction k with
  | zero => intro e st; rfl
  | succ k ih =>
    intro e st
    rw [fitGo_succ, ih (e + 1) ((fitStepT upd eA eP st).1)]
    show some _ = some _
    congr 1
    rw [List.range_succ_eq_map]
    simp only [List.map_cons, List.map_map]
    congr 1
    apply List.map_congr_left
    intro m hm
    simp only [Function.comp_apply, EpochLog.mk.injEq]
    refine ⟨by omega, by trivial, ?_⟩
    rw [stateSeq_shift]

/-- Claim C8: `fit` executes exactly `n_epochs` iterations with no early
stopping, and in iteration `e` every registered callback receives exactly
one record containing the epoch index `e`, the total `n_epochs`, and that
iteration's scalar loss value (the log stream has one such record per
iteration). -/
theorem claim_C8 (T : Tomograph) (upd : Tomograph → ℝ → Tomograph)
    (x theta : List ℝ) (nE : ℕ) (initIdx : List ℕ)
    (hinit : ∀ i ∈ initIdx, i < 2 ^ T.vis_size) :
    ∃ logs, fit T upd x theta nE initIdx = some logs ∧
      logs.length = nE ∧
      ∀ e, e < nE → logs.getD e (EpochLog.mk 0 0 0)
        = EpochLog.mk e nE (fitLossSeq T upd x theta initIdx e) := by
  rcases encode_data_range T.vis_size x theta with ⟨eA, eP, henc⟩
  rcases idx2vis_isSome_of_lt initIdx T.vis_size hinit with ⟨v0, hv0⟩
  have hfit : fit T upd x theta nE initIdx = fitGo upd eA eP nE nE 0 (T, v0) := by
    unfold fit
    rw [henc, hv0]
  rw [hfit, fitGo_eq_some]
  refine ⟨_, rfl, by simp, ?_⟩
  intro e he
  rw [getD_map_lt _ (List.range nE) e (EpochLog.mk 0 0 0) 0
    (by simpa using he)]
  rw [List.getD_eq_getElem _ _ (by simpa using he), List.getElem_range]
  unfold fitLossSeq
  rw [henc, hv0]
  simp only [Option.getD_some, Nat.zero_add]

/-- Concrete instance of claim C8 on the demonstration model, two epochs. -/
theorem claim_C8_witness :
    ∃ logs, fit demoT (fun t _ => t) [(0 : ℝ)] [(0 : ℝ)] 2 [0] = some logs ∧
      logs.length = 2 ∧
      ∀ e, e < 2 → logs.getD e (EpochLog.mk 0 0 0)
        = EpochLog.mk e 2 (fitLossSeq demoT (fun t _ => t) [(0 : ℝ)] [(0 : ℝ)] [0] e) :=
  claim_C8 demoT (fun t _ => t) [(0 : ℝ)] [(0 : ℝ)] 2 [0] (by decide)

/-- Claim C10: `predict` and `loss` are read-only queries — threading the
model state through their bodies returns it unchanged, both as a whole and
field by field (both RBMs' parameter stand-ins and every configuration
field). -/
theorem claim_C10 (T : Tomograph) (dA dP : List (List ℝ)) (pA pP : List ℝ) :
    (predictState T).2 = T ∧ (lossState T dA dP pA pP).2 = T ∧
    (predictState T).2.vis_size = T.vis_size ∧
    (predictState T).2.hid_size = T.hid_size ∧
    (predictState T).2.gibbs = T.gibbs ∧
    (predictState T).2.n_samples = T.n_samples ∧
    (predictState T).2.n_gibbs_steps = T.n_gibbs_steps ∧
    (predictState T).2.eps = T.eps ∧
    (predictState T).2.ampProb = T.ampProb ∧
    (predictState T).2.phaseProb = T.phaseProb ∧
    (lossState T dA dP pA pP).2.eps = T.eps := by
  have hp : (predictState T).2 = T := by
    unfold predictState
    cases enumBasis T.vis_size <;> rfl
  refine ⟨hp, rfl, ?_, ?_, ?_, ?_, ?_, ?_, ?_, ?_, rfl⟩ <;> rw [hp]

end Tomo
